import Mathlib

/-!
Verification of the `io-utils` inverse-multiplexer library.

This file gives a shallow embedding, in Lean, of the Rust modules
`src/imux.rs`, `src/counting.rs` and `src/threaded.rs`, and proves (or
refutes) the specification claims about them.

Modelling conventions:
* a byte is a `Nat` (values `< 256` by construction where it matters);
* a read endpoint is the `List Nat` of bytes available before EOF
  (a pre-closed channel is `[]`);
* a write endpoint `WCh` records a `closed` flag, the bytes written so far,
  and the `CountingIO` byte counter (`count`, a `u64`, ignored for
  un-instrumented channels);
* `usize` lengths are `Nat`s (64-bit platform: casts `as u64` are `% 2 ^ 64`);
* Rust panics (out-of-bounds indexing, `unwrap` on `Err`) are the `panicked`
  outcome, `io::Error` returns are the `ioError` outcome of `RRes`;
* the `f64` arithmetic in `chunk_size` is modelled exactly, by IEEE-754
  round-to-nearest-even on the binary64 grid (`floatOfNat`, `ceilF`).
-/

/-- Little-endian base-256 digits: `toLEb k x` is the first `k` bytes of the
little-endian encoding of `x` (so `toLEb 8 x` models `(x as u64).to_le_bytes()`,
the truncation `x % 2^64` being implicit in taking 8 digits). -/
def toLEb : Nat → Nat → List Nat
  | 0, _ => []
  | k + 1, x => x % 256 :: toLEb k (x / 256)

/-- The 8-byte little-endian encoding `(len as u64).to_le_bytes()`. -/
def toLE (x : Nat) : List Nat := toLEb 8 x

/-- `u64::from_le_bytes`: decode little-endian bytes (least significant first). -/
def fromLE (bs : List Nat) : Nat := bs.foldr (fun b acc => b + 256 * acc) 0

/-- Floor of log base 2, by fuel-bounded halving; `lg2go f n` is correct for
`n < 2 ^ f`. -/
def lg2go : Nat → Nat → Nat
  | 0, _ => 0
  | f + 1, n => if n < 2 then 0 else lg2go f (n / 2) + 1

/-- Floor of log base 2, correct for arguments below `2 ^ 70` (all values
arising from `usize` inputs stay far below this). -/
def lg2 (n : Nat) : Nat := lg2go 70 n

/-- Round `num / den` to the nearest integer, ties to even — the scaled form
of IEEE-754 round-to-nearest-even. -/
def rhe (num den : Nat) : Nat :=
  if 2 * (num % den) < den then num / den
  else if den < 2 * (num % den) then num / den + 1
  else if num / den % 2 = 0 then num / den else num / den + 1

/-- Value of `x as f64` for a `usize` value `x`: exact below `2 ^ 53`,
otherwise rounded to the nearest multiple of the binade's ulp
`2 ^ (lg2 x - 52)`, ties to even mantissa. -/
def floatOfNat (x : Nat) : Nat :=
  if x ≤ 2 ^ 53 then x
  else rhe x (2 ^ (lg2 x - 52)) * 2 ^ (lg2 x - 52)

/-- Model of `(len as f64 / n as f64).ceil() as usize` (for `n ≥ 1`; the
code never calls it with `n = 0` because `channels[0]` is indexed first).
With `a`, `b` the exactly-represented operands, the IEEE quotient is `a / b`
rounded to the nearest point of the grid of spacing `2 ^ (e - 52)` in the
binade `[2 ^ e, 2 ^ (e + 1))` containing it; its ceiling is computed on that
grid.  A quotient in `(0, 1)` rounds to a positive float `≤ 1`, whose
ceiling is `1`.  The final `min` is the saturating `as usize` cast. -/
def ceilF (len n : Nat) : Nat :=
  if floatOfNat len = 0 then 0
  else if floatOfNat len < floatOfNat n then 1
  else if lg2 (floatOfNat len / floatOfNat n) ≤ 52 then
    (rhe (floatOfNat len * 2 ^ (52 - lg2 (floatOfNat len / floatOfNat n))) (floatOfNat n)
        + 2 ^ (52 - lg2 (floatOfNat len / floatOfNat n)) - 1)
      / 2 ^ (52 - lg2 (floatOfNat len / floatOfNat n))
  else
    min (rhe (floatOfNat len) (floatOfNat n * 2 ^ (lg2 (floatOfNat len / floatOfNat n) - 52))
          * 2 ^ (lg2 (floatOfNat len / floatOfNat n) - 52))
      (2 ^ 64 - 1)

/-- `MIN_CHUNK_SIZE` from `imux.rs`. -/
def MIN_CHUNK_SIZE : Nat := 8192

/-- `IMuxSync::chunk_size` / `IMuxAsync::chunk_size`:
`max(MIN_CHUNK_SIZE, (len as f64 / n as f64).ceil() as usize)`. -/
def chunkSize (len n : Nat) : Nat := max MIN_CHUNK_SIZE (ceilF len n)

/-- The chunk size as the specification words it: `max(MIN_CHUNK_SIZE,
ceil(len / n))` with an exact integer ceiling. -/
def chunkSizeSpec (len n : Nat) : Nat := max MIN_CHUNK_SIZE ((len + n - 1) / n)

/-- Outcome of a Rust call in the model: `panicked` for a Rust panic
(out-of-bounds index, `unwrap()` on `Err`), `ioError` for an `Err(io::Error)`
return, `ok` for success. -/
inductive RRes (α : Type) where
  | panicked : RRes α
  | ioError : RRes α
  | ok : α → RRes α
deriving DecidableEq, Repr

/-- A write endpoint: `closed` models a connection on which writes fail,
`data` the bytes written so far, `count` the `CountingIO` byte counter
(a `u64`; it is simply ignored for channels without the wrapper). -/
structure WCh where
  closed : Bool
  data : List Nat
  count : Nat
deriving DecidableEq, Repr

/-- `n` open write channels with empty history and zeroed counters. -/
def freshW (n : Nat) : List WCh := List.replicate n ⟨false, [], 0⟩

/-- `write_all` through `CountingIO` (per `counting.rs`, each successful
`write` of `k` bytes adds `k` to the wrapping `u64` counter; `write_all`
with an empty buffer returns `Ok` without calling `write`). -/
def writeAll (buf : List Nat) (ch : WCh) : Option WCh :=
  if buf = [] then some ch
  else if ch.closed then none
  else some { ch with data := ch.data ++ buf, count := (ch.count + buf.length) % 2 ^ 64 }

/-- `read_exact k` on a stream holding `ch` before EOF: succeeds consuming
exactly `k` bytes, or fails if fewer are available. -/
def readExact (k : Nat) (ch : List Nat) : Option (List Nat × List Nat) :=
  if k ≤ ch.length then some (ch.take k, ch.drop k) else none

/-- The buffer contents left by `read_exact k` when its `Result` is dropped
(the `IMuxSync` chunk loop): on a short read the available prefix is consumed
and the zero-initialised remainder of the chunk stays `0`. -/
def readChunkSync (k : Nat) (ch : List Nat) : List Nat × List Nat :=
  if k ≤ ch.length then (ch.take k, ch.drop k)
  else (ch ++ List.replicate (k - ch.length) 0, [])

/-- The successive chunks `buf.chunks(cs)` assigns to `m` channels: channel
`j` of the `m` receives `(rem.drop (j*cs)).take cs` (empty once `rem` is
exhausted, matching the `zip` ending before such channels). -/
def wireChunks (cs : Nat) : List Nat → Nat → List (List Nat)
  | _, 0 => []
  | rem, m + 1 => rem.take cs :: wireChunks cs (rem.drop cs) m

/-- The bytes one multiplexer `write` of `B` puts on each of `n` channels:
channel 0 carries the 8-byte little-endian length header immediately followed
by its own chunk; channel `i ≥ 1` carries only its chunk. -/
def imuxWire (B : List Nat) (n : Nat) : List (List Nat) :=
  match n with
  | 0 => []
  | m + 1 =>
      (toLE B.length ++ B.take (chunkSize B.length (m + 1))) ::
        wireChunks (chunkSize B.length (m + 1)) (B.drop (chunkSize B.length (m + 1))) m

/-- The chunk phase of `IMuxSync::write` (imux.rs:171-181): one scoped thread
per `(chunk, writer)` pair runs `write_all`; the returned `io::Result`s are
never joined, so `thread::scope` succeeds unless a thread panics and a failed
`write_all` leaves its channel unchanged with no error surfaced. -/
def writeChunksS (cs : Nat) : List Nat → List WCh → List WCh
  | _, [] => []
  | rem, ch :: rest => ((writeAll (rem.take cs) ch).getD ch) :: writeChunksS cs (rem.drop cs) rest

/-- `IMuxSync::write` (imux.rs:165-183): `channels[0]` (panic when the vector
is empty) takes the length header with `?`-propagation, then the chunk phase
runs with its per-channel errors dropped. -/
def imuxWriteSync (buf : List Nat) (chs : List WCh) : RRes (List WCh) :=
  match chs with
  | [] => .panicked
  | ch0 :: rest =>
    match writeAll (toLE buf.length) ch0 with
    | none => .ioError
    | some ch0' => .ok (writeChunksS (chunkSize buf.length (rest.length + 1)) buf (ch0' :: rest))

/-- The chunk phase of `IMuxAsync::write` (imux.rs:229-237): all chunk
futures are collected and `collect::<Result<_,_>>` fails if any failed. -/
def writeChunksA (cs : Nat) : List Nat → List WCh → Option (List WCh)
  | _, [] => some []
  | rem, ch :: rest =>
    match writeAll (rem.take cs) ch with
    | none => none
    | some ch' =>
      match writeChunksA cs (rem.drop cs) rest with
      | none => none
      | some rest' => some (ch' :: rest')

/-- `IMuxAsync::write` (imux.rs:220-239). -/
def imuxWriteAsync (buf : List Nat) (chs : List WCh) : RRes (List WCh) :=
  match chs with
  | [] => .panicked
  | ch0 :: rest =>
    match writeAll (toLE buf.length) ch0 with
    | none => .ioError
    | some ch0' =>
      match writeChunksA (chunkSize buf.length (rest.length + 1)) buf (ch0' :: rest) with
      | none => .ioError
      | some chs' => .ok chs'

/-- The chunk phase of `IMuxSync::read` (imux.rs:148-158): one scoped thread
per `(chunk, reader)` pair runs `read_exact` into its slice of the
zero-initialised buffer; the `io::Result`s are dropped, so short reads leave
zeros behind and surface no error.  Channel `j` reads `min cs remLen` bytes
where `remLen = len - j*cs` is what is left of the message. -/
def readChunksS (cs : Nat) : Nat → List (List Nat) → List (List Nat) × List (List Nat)
  | _, [] => ([], [])
  | remLen, ch :: rest =>
    ((readChunkSync (min cs remLen) ch).1 :: (readChunksS cs (remLen - cs) rest).1,
     (readChunkSync (min cs remLen) ch).2 :: (readChunksS cs (remLen - cs) rest).2)

/-- `IMuxSync::read` (imux.rs:139-160): `channels[0]` (panic when empty)
yields the 8-byte header with `?`-propagation; the chunk phase never fails;
chunks beyond the channel count (`buf.chunks_mut(cs)` longer than the `zip`)
are never read and stay zero. -/
def imuxReadSync (chs : List (List Nat)) : RRes (List Nat × List (List Nat)) :=
  match chs with
  | [] => .panicked
  | ch0 :: rest =>
    match readExact 8 ch0 with
    | none => .ioError
    | some p =>
      let len := fromLE p.1
      let cs := chunkSize len (rest.length + 1)
      let q := readChunksS cs len (p.2 :: rest)
      .ok (q.1.flatten ++ List.replicate (len - (rest.length + 1) * cs) 0, q.2)

/-- The chunk phase of `IMuxAsync::read` (imux.rs:208-215): futures collected,
any failure propagated by `collect::<Result<_,_>>`. -/
def readChunksA (cs : Nat) : Nat → List (List Nat) → Option (List (List Nat) × List (List Nat))
  | _, [] => some ([], [])
  | remLen, ch :: rest =>
    match readExact (min cs remLen) ch with
    | none => none
    | some c =>
      match readChunksA cs (remLen - cs) rest with
      | none => none
      | some q => some (c.1 :: q.1, c.2 :: q.2)

/-- `IMuxAsync::read` (imux.rs:197-218). -/
def imuxReadAsync (chs : List (List Nat)) : RRes (List Nat × List (List Nat)) :=
  match chs with
  | [] => .panicked
  | ch0 :: rest =>
    match readExact 8 ch0 with
    | none => .ioError
    | some p =>
      let len := fromLE p.1
      let cs := chunkSize len (rest.length + 1)
      match readChunksA cs len (p.2 :: rest) with
      | none => .ioError
      | some q => .ok (q.1.flatten ++ List.replicate (len - (rest.length + 1) * cs) 0, q.2)

/-- `IMuxSync::flush` / `IMuxAsync::flush`: flush every channel, failing if
any individual flush fails (a closed connection in the model); no data or
counter changes. -/
def imuxFlush (chs : List WCh) : RRes (List WCh) :=
  if chs.all (fun ch => !ch.closed) then .ok chs else .ioError

/-- `IMuxSync::<CountingIO>::count`: the `u64` sum of every channel's
counter (imux.rs:114-116). -/
def imuxCount (chs : List WCh) : Nat :=
  chs.foldl (fun acc ch => (acc + ch.count) % 2 ^ 64) 0

/-- `IMuxSync::<CountingIO>::reset`: zero every channel's counter. -/
def imuxReset (chs : List WCh) : List WCh := chs.map (fun ch => { ch with count := 0 })

/-- `IMuxSync::new` / `IMuxAsync::new`: stores the channel vector unchanged —
no validation of non-emptiness or anything else. -/
def imuxNew (chs : List α) : List α := chs

/-- The shared `AtomicU8` clone counter of a `ThreadedWriter` lineage after
`k` clone calls: `ThreadedWriter::new` initialises it to `1`, each
`clone` does `fetch_add(1, SeqCst)` on the 8-bit counter (wrapping). -/
def cloneCount : Nat → Nat
  | 0 => 1
  | k + 1 => (cloneCount k + 1) % 256

/-- The identity (`num` field) of the `k`-th handle of a `ThreadedWriter`
lineage: the original handle (`k = 0`) has identity `0`; the `k`-th clone
call returns the counter's previous value. -/
def cloneId : Nat → Nat
  | 0 => 0
  | k + 1 => cloneCount k

/-- `ThreadedWriter::write` (threaded.rs:113-119): with the mutex held, write
the one-byte identity message, then the payload message, then flush, each
followed by `.unwrap()` (so any failure is a panic, not an error return).
The lock makes the whole sequence one atomic step on the shared multiplexer,
which is why it is modelled as a single function on the channel state. -/
def threadedWrite (num : Nat) (buf : List Nat) (chs : List WCh) : RRes (List WCh) :=
  match imuxWriteAsync [num] chs with
  | .ok chs1 =>
    match imuxWriteAsync buf chs1 with
    | .ok chs2 =>
      match imuxFlush chs2 with
      | .ok chs3 => .ok chs3
      | _ => .panicked
    | _ => .panicked
  | _ => .panicked

/-- Deliver a body to inbox `d` (`senders_lock[d].send(msg)`): the unbounded
per-clone queue at index `d` gets the message appended. -/
def deliver (d : Nat) (body : List Nat) (inbs : List (List (List Nat))) : List (List (List Nat)) :=
  inbs.set d (inbs.getD d [] ++ [body])

/-- How one run of the background pump ended: `clean` when the `while let
Ok(..)` header read failed and the loop exited; `panicked` when an `unwrap`
or an out-of-range index panicked the task; `fuelOut` never occurs with
enough fuel. -/
inductive PumpExit where
  | clean : PumpExit
  | panicked : PumpExit
  | fuelOut : PumpExit
deriving DecidableEq, Repr

/-- `ThreadedReader::read_loop` (threaded.rs:79-94), fuel-bounded: read one
message (its first byte is the sender identity — indexing an empty message
panics), read a second message with `.unwrap()`, deliver the body to the
identity's inbox (out-of-range index panics), and loop; exit the loop as soon
as the first read fails. -/
def readLoop : Nat → List (List Nat) → List (List (List Nat)) → List (List (List Nat)) × PumpExit
  | 0, _, inbs => (inbs, .fuelOut)
  | fuel + 1, chs, inbs =>
    match imuxReadAsync chs with
    | .panicked => (inbs, .panicked)
    | .ioError => (inbs, .clean)
    | .ok p =>
      match imuxReadAsync p.2 with
      | .ok q =>
        match p.1 with
        | [] => (inbs, .panicked)
        | d :: _ =>
          if d < inbs.length then readLoop fuel q.2 (deliver d q.1 inbs)
          else (inbs, .panicked)
      | _ => (inbs, .panicked)

/-- A sequence of `ThreadedWriter::write` calls (each one atomic under the
lock), in wire order. -/
def writeMsgs : List (Nat × List Nat) → List WCh → RRes (List WCh)
  | [], chs => .ok chs
  | m :: rest, chs =>
    match threadedWrite m.1 m.2 chs with
    | .ok chs' => writeMsgs rest chs'
    | .panicked => .panicked
    | .ioError => .ioError

/-- The effect of one successful `write_all` of `w` on an open channel:
bytes appended, counter bumped (wrapping `u64`).  Used to state the wire
characterisation of a multiplexer write. -/
def wupd (w : List Nat) (ch : WCh) : WCh :=
  ⟨ch.closed, ch.data ++ w, (ch.count + w.length) % 2 ^ 64⟩

/-- The per-channel bytes a sequence of `ThreadedWriter::write` calls puts on
the wire: each logical message `(d, B)` contributes the wire of the one-byte
identity message `[d]` followed by the wire of the payload message `B`. -/
def wiresOf : List (Nat × List Nat) → Nat → List (List Nat)
  | [], n => List.replicate n []
  | m :: rest, n =>
    List.zipWith (fun a b => a ++ b) (imuxWire [m.1] n)
      (List.zipWith (fun a b => a ++ b) (imuxWire m.2 n) (wiresOf rest n))

theorem length_toLEb (k x : Nat) : (toLEb k x).length = k := by
  induction k generalizing x with
  | zero => rfl
  | succ k ih => simp [toLEb, ih]

theorem length_toLE (x : Nat) : (toLE x).length = 8 := length_toLEb 8 x

theorem fromLE_cons (b : Nat) (t : List Nat) : fromLE (b :: t) = b + 256 * fromLE t := rfl

theorem fromLE_toLEb (k x : Nat) : fromLE (toLEb k x) = x % 256 ^ k := by
  induction k generalizing x with
  | zero => simp [toLEb, fromLE, Nat.mod_one]
  | succ k ih =>
    rw [toLEb, fromLE_cons, ih, pow_succ, mul_comm ((256:Nat) ^ k) 256, Nat.mod_mul]

theorem fromLE_toLE (x : Nat) (h : x < 2 ^ 64) : fromLE (toLE x) = x := by
  have h8 : (256 : Nat) ^ 8 = 2 ^ 64 := by norm_num
  rw [toLE, fromLE_toLEb, h8, Nat.mod_eq_of_lt h]

theorem lg2go_spec (f : Nat) : ∀ n, 1 ≤ n → n < 2 ^ f →
    2 ^ lg2go f n ≤ n ∧ n < 2 ^ (lg2go f n + 1) := by
  induction f with
  | zero => intro n h1 h2; simp at h2; omega
  | succ f ih =>
    intro n h1 h2
    by_cases hn : n < 2
    · have h0 : lg2go (f + 1) n = 0 := by simp [lg2go, hn]
      rw [h0]; constructor
      · simpa using h1
      · simpa using hn
    · have h2' : n / 2 < 2 ^ f := by rw [pow_succ] at h2; omega
      have ihh := ih (n / 2) (by omega) h2'
      have hrw : lg2go (f + 1) n = lg2go f (n / 2) + 1 := by simp [lg2go, hn]
      rw [hrw, pow_succ, pow_succ]
      rw [pow_succ] at ihh
      omega

theorem lg2_spec (n : Nat) (h1 : 1 ≤ n) (h2 : n < 2 ^ 70) :
    2 ^ lg2 n ≤ n ∧ n < 2 ^ (lg2 n + 1) := lg2go_spec 70 n h1 h2

theorem rhe_ge (num den : Nat) : num / den ≤ rhe num den := by
  unfold rhe; split_ifs <;> omega

theorem rhe_le (num den : Nat) : rhe num den ≤ num / den + 1 := by
  unfold rhe; split_ifs <;> omega

theorem rhe_dvd (num den : Nat) (hd : 0 < den) (h : num % den = 0) :
    rhe num den = num / den := by
  unfold rhe; split_ifs <;> omega

theorem rhe_up (num den : Nat) (h : den < 2 * (num % den)) :
    rhe num den = num / den + 1 := by
  unfold rhe; split_ifs <;> omega

theorem floatOfNat_small (x : Nat) (h : x ≤ 2 ^ 53) : floatOfNat x = x := by
  rw [floatOfNat, if_pos h]

theorem floatOfNat_big (x : Nat) (h1 : 2 ^ 53 < x) (h2 : x < 2 ^ 70) :
    2 ^ 53 ≤ floatOfNat x := by
  have hs := lg2_spec x (by omega) h2
  set e := lg2 x with he
  have he53 : 53 ≤ e := by
    by_contra hc
    push_neg at hc
    have hle : 2 ^ (e + 1) ≤ 2 ^ 53 := Nat.pow_le_pow_right (by norm_num) (by omega)
    omega
  have hu : (0 : Nat) < 2 ^ (e - 52) := Nat.pos_pow_of_pos _ (by norm_num)
  have hsplit : 2 ^ 52 * 2 ^ (e - 52) = 2 ^ e := by
    rw [← pow_add]; congr 1; omega
  have hdiv : 2 ^ 52 ≤ x / 2 ^ (e - 52) := by
    rw [Nat.le_div_iff_mul_le hu, hsplit]
    exact hs.1
  have hrhe : 2 ^ 52 ≤ rhe x (2 ^ (e - 52)) := le_trans hdiv (rhe_ge _ _)
  have hfx : floatOfNat x = rhe x (2 ^ (e - 52)) * 2 ^ (e - 52) := by
    rw [floatOfNat, if_neg (by omega)]
  rw [hfx]
  calc 2 ^ 53 ≤ 2 ^ e := Nat.pow_le_pow_right (by norm_num) he53
    _ = 2 ^ 52 * 2 ^ (e - 52) := hsplit.symm
    _ ≤ rhe x (2 ^ (e - 52)) * 2 ^ (e - 52) := Nat.mul_le_mul_right _ hrhe

theorem ceilF_eq (len n : Nat) (hn : 1 ≤ n) (hn64 : n < 2 ^ 64) (hlen : len ≤ 2 ^ 53) :
    ceilF len n = (len + n - 1) / n := by
  have ha : floatOfNat len = len := floatOfNat_small len hlen
  rcases Nat.eq_zero_or_pos len with h0 | hpos
  · subst h0
    rw [ceilF, ha, if_pos rfl]
    symm; apply Nat.div_eq_of_lt; omega
  · by_cases hnb : n ≤ 2 ^ 53
    · have hb : floatOfNat n = n := floatOfNat_small n hnb
      by_cases hlt : len < n
      · rw [ceilF, ha, hb, if_neg (by omega), if_pos hlt]
        symm; exact Nat.div_eq_of_lt_le (by omega) (by omega)
      · have hge : n ≤ len := by omega
        have hdam := Nat.div_add_mod len n
        have hmlt : len % n < n := Nat.mod_lt len (by omega)
        have hm1 : 1 ≤ len / n := (Nat.one_le_div_iff (by omega)).mpr hge
        have hupb : len / n ≤ len := Nat.div_le_self len n
        have hsp := lg2_spec (len / n) hm1 (by
          have h70 : (2 : Nat) ^ 53 < 2 ^ 70 := by norm_num
          omega)
        by_cases he : lg2 (len / n) ≤ 52
        · rw [ceilF, ha, hb, if_neg (by omega), if_neg (by omega), if_pos he]
          set e := lg2 (len / n) with hedef
          set s := 52 - e with hsdef
          set m := len / n with hmdef
          set r := len % n with hrdef
          have hps : (0 : Nat) < 2 ^ s := Nat.pos_pow_of_pos _ (by norm_num)
          by_cases hr0 : r = 0
          · have hdvd : len = n * m := by omega
            have hmod : (len * 2 ^ s) % n = 0 := by
              rw [hdvd, mul_assoc]; exact Nat.mul_mod_right n _
            have hdivv : (len * 2 ^ s) / n = m * 2 ^ s := by
              rw [hdvd, mul_assoc]; exact Nat.mul_div_cancel_left _ (by omega)
            rw [rhe_dvd _ _ (by omega) hmod, hdivv]
            have hmul : (m + 1) * 2 ^ s = m * 2 ^ s + 2 ^ s := by ring
            have h1 : (m * 2 ^ s + 2 ^ s - 1) / 2 ^ s = m :=
              Nat.div_eq_of_lt_le (by omega) (by omega)
            have h2 : (len + n - 1) / n = m := by
              have hrw : len + n - 1 = n * m + (n - 1) := by omega
              rw [hrw, Nat.mul_add_div (by omega)]
              have hz : (n - 1) / n = 0 := Nat.div_eq_of_lt (by omega)
              omega
            rw [h1, h2]
          · have hK : (len + n - 1) / n = m + 1 := by
              have hx : n * (m + 1) = n * m + n := by ring
              have hlen' : len + n - 1 = n * (m + 1) + (r - 1) := by omega
              rw [hlen', Nat.mul_add_div (by omega)]
              have hz : (r - 1) / n = 0 := Nat.div_eq_of_lt (by omega)
              omega
            rw [hK]
            set N := len * 2 ^ s with hN
            have hq := Nat.div_add_mod N n
            have hqm : N % n < n := Nat.mod_lt N (by omega)
            have hlow : m * 2 ^ s ≤ N / n := by
              rw [Nat.le_div_iff_mul_le (by omega)]
              calc m * 2 ^ s * n = n * m * 2 ^ s := by ring
                _ ≤ len * 2 ^ s := Nat.mul_le_mul_right _ (by omega)
            have hupp : N / n < (m + 1) * 2 ^ s := by
              rw [Nat.div_lt_iff_lt_mul (by omega)]
              calc N = len * 2 ^ s := rfl
                _ < (n * m + n) * 2 ^ s := (Nat.mul_lt_mul_right hps).mpr (by omega)
                _ = (m + 1) * 2 ^ s * n := by ring
            have hkey : m * 2 ^ s + 1 ≤ rhe N n := by
              rcases Nat.lt_or_ge (m * 2 ^ s) (N / n) with hgt | hle
              · have := rhe_ge N n; omega
              · have heq : N / n = m * 2 ^ s := by omega
                rw [heq] at hq
                have hmodN : N % n = r * 2 ^ s := by
                  have h1 : n * (m * 2 ^ s) + r * 2 ^ s = N := by
                    calc n * (m * 2 ^ s) + r * 2 ^ s = (n * m + r) * 2 ^ s := by ring
                      _ = len * 2 ^ s := by rw [hdam]
                  omega
                have hbound : n < 2 * 2 ^ s := by
                  have h1 : n * 2 ^ e ≤ n * m := Nat.mul_le_mul_left n hsp.1
                  have h3 : (2 : Nat) ^ 53 = 2 * 2 ^ s * 2 ^ e := by
                    rw [mul_assoc, ← pow_add]
                    have hse : s + e = 52 := by omega
                    rw [hse]; norm_num
                  have h4 : n * 2 ^ e < 2 * 2 ^ s * 2 ^ e := by omega
                  exact Nat.lt_of_mul_lt_mul_right h4
                have hup2 : n < 2 * (N % n) := by
                  rw [hmodN]
                  have hr1 : 1 * 2 ^ s ≤ r * 2 ^ s :=
                    Nat.mul_le_mul_right _ (by omega)
                  omega
                rw [rhe_up N n hup2, heq]
            have hkeyUp : rhe N n ≤ (m + 1) * 2 ^ s := by
              have := rhe_le N n
              have hmul : (m + 1) * 2 ^ s = m * 2 ^ s + 2 ^ s := by ring
              omega
            apply Nat.div_eq_of_lt_le
            · have hmul : (m + 1) * 2 ^ s = m * 2 ^ s + 2 ^ s := by ring
              omega
            · have hmul2 : (m + 1 + 1) * 2 ^ s = m * 2 ^ s + 2 ^ s + 2 ^ s := by ring
              have hmul : (m + 1) * 2 ^ s = m * 2 ^ s + 2 ^ s := by ring
              omega
        · have h53 : 2 ^ 53 ≤ len / n := by
            have hmono : (2 : Nat) ^ 53 ≤ 2 ^ lg2 (len / n) :=
              Nat.pow_le_pow_right (by norm_num) (by omega)
            exact le_trans hmono hsp.1
          have hn1 : n = 1 := by
            by_contra hc
            have hn2 : 2 ≤ n := by omega
            have hd2 : len / n ≤ len / 2 := Nat.div_le_div_left hn2 (by norm_num)
            have hd3 : len / 2 ≤ 2 ^ 53 / 2 := Nat.div_le_div_right hlen
            have hv : (2 : Nat) ^ 53 / 2 = 2 ^ 52 := by norm_num
            have hv2 : (2 : Nat) ^ 52 < 2 ^ 53 := by norm_num
            omega
          subst hn1
          have hlen53 : len = 2 ^ 53 := by
            rw [Nat.div_one] at h53; omega
          subst hlen53
          decide
    · have hblow : 2 ^ 53 ≤ floatOfNat n :=
        floatOfNat_big n (by omega) (by
          have h70 : (2 : Nat) ^ 64 < 2 ^ 70 := by norm_num
          omega)
      by_cases hab : len < floatOfNat n
      · rw [ceilF, ha, if_neg (by omega), if_pos hab]
        have hln : len < n := by omega
        symm; exact Nat.div_eq_of_lt_le (by omega) (by omega)
      · have heqb : floatOfNat n = 2 ^ 53 := by omega
        have hlen53 : len = 2 ^ 53 := by omega
        subst hlen53
        have hlhs : ceilF (2 ^ 53) n = 1 := by
          rw [ceilF, ha, heqb]
          decide
        rw [hlhs]
        have hln : 2 ^ 53 < n := by omega
        symm; exact Nat.div_eq_of_lt_le (by omega) (by omega)

theorem chunkSize_exact (len n : Nat) (hn : 1 ≤ n) (hn64 : n < 2 ^ 64)
    (hlen : len ≤ 2 ^ 53) : chunkSize len n = chunkSizeSpec len n := by
  rw [chunkSize, chunkSizeSpec, ceilF_eq len n hn hn64 hlen]

theorem length_wireChunks (cs : Nat) (rem : List Nat) (m : Nat) :
    (wireChunks cs rem m).length = m := by
  induction m generalizing rem with
  | zero => rfl
  | succ m ih => simp [wireChunks, ih]

theorem flatten_wireChunks (cs : Nat) (rem : List Nat) (m : Nat)
    (h : rem.length ≤ m * cs) : (wireChunks cs rem m).flatten = rem := by
  induction m generalizing rem with
  | zero =>
    have hnil : rem = [] := List.eq_nil_of_length_eq_zero (by omega)
    simp [wireChunks, hnil]
  | succ m ih =>
    have hd : (rem.drop cs).length ≤ m * cs := by
      rw [List.length_drop]
      have : (m + 1) * cs = m * cs + cs := by ring
      omega
    simp only [wireChunks, List.flatten_cons, ih (rem.drop cs) hd, List.take_append_drop]

theorem sum_length_wireChunks (cs : Nat) (rem : List Nat) (m : Nat) :
    ((wireChunks cs rem m).map List.length).sum = min rem.length (m * cs) := by
  induction m generalizing rem with
  | zero => simp [wireChunks]
  | succ m ih =>
    simp only [wireChunks, List.map_cons, List.sum_cons, ih (rem.drop cs),
      List.length_take, List.length_drop]
    have : (m + 1) * cs = m * cs + cs := by ring
    omega

theorem wireChunks_getD (cs : Nat) (rem : List Nat) (m i : Nat) (h : i < m) :
    (wireChunks cs rem m).getD i [] = (rem.drop (i * cs)).take cs := by
  induction m generalizing rem i with
  | zero => omega
  | succ m ih =>
    cases i with
    | zero => simp [wireChunks]
    | succ i =>
      have hi : i < m := by omega
      simp only [wireChunks, List.getD_cons_succ, ih (rem.drop cs) i hi, List.drop_drop]
      congr 2
      ring

theorem writeChunksA_open (cs : Nat) (rem : List Nat) (chs : List WCh)
    (hopen : ∀ ch ∈ chs, ch.closed = false) (hcnt : ∀ ch ∈ chs, ch.count < 2 ^ 64) :
    writeChunksA cs rem chs =
      some (List.zipWith wupd (wireChunks cs rem chs.length) chs) := by
  induction chs generalizing rem with
  | nil => rfl
  | cons ch rest ih =>
    obtain ⟨cl, dt, ct⟩ := ch
    have hcl : cl = false := hopen ⟨cl, dt, ct⟩ (List.mem_cons_self _ _)
    have hct : ct < 2 ^ 64 := hcnt ⟨cl, dt, ct⟩ (List.mem_cons_self _ _)
    subst hcl
    have hw : writeAll (rem.take cs) ⟨false, dt, ct⟩ =
        some (wupd (rem.take cs) ⟨false, dt, ct⟩) := by
      by_cases hz : rem.take cs = []
      · rw [writeAll, if_pos hz, wupd, hz]
        simp only [List.append_nil, List.length_nil, Nat.add_zero]
        rw [Nat.mod_eq_of_lt hct]
      · rw [writeAll, if_neg hz]
        simp [wupd]
    rw [List.length_cons, wireChunks, List.zipWith_cons_cons]
    rw [writeChunksA, hw, ih (rem.drop cs) (fun c hc => hopen c (by simp [hc]))
      (fun c hc => hcnt c (by simp [hc]))]

theorem writeChunksS_open (cs : Nat) (rem : List Nat) (chs : List WCh)
    (hopen : ∀ ch ∈ chs, ch.closed = false) (hcnt : ∀ ch ∈ chs, ch.count < 2 ^ 64) :
    writeChunksS cs rem chs = List.zipWith wupd (wireChunks cs rem chs.length) chs := by
  induction chs generalizing rem with
  | nil => rfl
  | cons ch rest ih =>
    obtain ⟨cl, dt, ct⟩ := ch
    have hcl : cl = false := hopen ⟨cl, dt, ct⟩ (List.mem_cons_self _ _)
    have hct : ct < 2 ^ 64 := hcnt ⟨cl, dt, ct⟩ (List.mem_cons_self _ _)
    subst hcl
    have hw : writeAll (rem.take cs) ⟨false, dt, ct⟩ =
        some (wupd (rem.take cs) ⟨false, dt, ct⟩) := by
      by_cases hz : rem.take cs = []
      · rw [writeAll, if_pos hz, wupd, hz]
        simp only [List.append_nil, List.length_nil, Nat.add_zero]
        rw [Nat.mod_eq_of_lt hct]
      · rw [writeAll, if_neg hz]
        simp [wupd]
    rw [List.length_cons, wireChunks, List.zipWith_cons_cons]
    rw [writeChunksS, hw]
    simp only [Option.getD_some]
    rw [ih (rem.drop cs) (fun c hc => hopen c (by simp [hc]))
      (fun c hc => hcnt c (by simp [hc]))]

theorem readExact_append (l1 l2 : List Nat) :
    readExact l1.length (l1 ++ l2) = some (l1, l2) := by
  rw [readExact, if_pos (by simp)]
  rw [List.take_left, List.drop_left]

theorem readChunkSync_append (l1 l2 : List Nat) :
    readChunkSync l1.length (l1 ++ l2) = (l1, l2) := by
  rw [readChunkSync, if_pos (by simp)]
  rw [List.take_left, List.drop_left]

theorem toLE_ne_nil (x : Nat) : toLE x ≠ [] := by
  intro h
  have := length_toLE x
  rw [h] at this
  simp at this

theorem readChunksA_wire (cs : Nat) (rem : List Nat) (rests : List (List Nat))
    (h : rem.length ≤ rests.length * cs) :
    readChunksA cs rem.length
        (List.zipWith (fun a b => a ++ b) (wireChunks cs rem rests.length) rests)
      = some (wireChunks cs rem rests.length, rests) := by
  induction rests generalizing rem with
  | nil => rfl
  | cons r rrest ih =>
    simp only [List.length_cons, wireChunks, List.zipWith_cons_cons]
    rw [readChunksA]
    have hk : min cs rem.length = (rem.take cs).length := (List.length_take _ _).symm
    rw [hk, readExact_append]
    rw [List.length_cons] at h
    have hlen : (rem.drop cs).length ≤ rrest.length * cs := by
      rw [List.length_drop]
      have hmul : (rrest.length + 1) * cs = rrest.length * cs + cs := by ring
      omega
    have ihh := ih (rem.drop cs) hlen
    rw [List.length_drop] at ihh
    rw [ihh]

theorem readChunksS_wire (cs : Nat) (rem : List Nat) (rests : List (List Nat))
    (h : rem.length ≤ rests.length * cs) :
    readChunksS cs rem.length
        (List.zipWith (fun a b => a ++ b) (wireChunks cs rem rests.length) rests)
      = (wireChunks cs rem rests.length, rests) := by
  induction rests generalizing rem with
  | nil => rfl
  | cons r rrest ih =>
    simp only [List.length_cons, wireChunks, List.zipWith_cons_cons]
    rw [readChunksS]
    have hk : min cs rem.length = (rem.take cs).length := (List.length_take _ _).symm
    rw [hk, readChunkSync_append]
    rw [List.length_cons] at h
    have hlen : (rem.drop cs).length ≤ rrest.length * cs := by
      rw [List.length_drop]
      have hmul : (rrest.length + 1) * cs = rrest.length * cs + cs := by ring
      omega
    have ihh := ih (rem.drop cs) hlen
    rw [List.length_drop] at ihh
    rw [ihh]

theorem chunkSize_pos (len n : Nat) : 0 < chunkSize len n := by
  have : MIN_CHUNK_SIZE ≤ chunkSize len n := le_max_left _ _
  rw [MIN_CHUNK_SIZE] at this
  omega

theorem len_le_mul_chunkSize (len n : Nat) (hn : 1 ≤ n) (hn64 : n < 2 ^ 64)
    (hlen : len ≤ 2 ^ 53) : len ≤ n * chunkSize len n := by
  have hce := chunkSize_exact len n hn hn64 hlen
  have hq := Nat.div_add_mod (len + n - 1) n
  have hm : (len + n - 1) % n < n := Nat.mod_lt _ (by omega)
  have h1 : len ≤ n * ((len + n - 1) / n) := by omega
  have h2 : (len + n - 1) / n ≤ chunkSize len n := by
    rw [hce, chunkSizeSpec]
    exact le_max_right _ _
  calc len ≤ n * ((len + n - 1) / n) := h1
    _ ≤ n * chunkSize len n := Nat.mul_le_mul_left n h2

theorem imuxWriteAsync_open (buf : List Nat) (chs : List WCh) (h1 : 1 ≤ chs.length)
    (hopen : ∀ ch ∈ chs, ch.closed = false) (hcnt : ∀ ch ∈ chs, ch.count < 2 ^ 64) :
    imuxWriteAsync buf chs = .ok (List.zipWith wupd (imuxWire buf chs.length) chs) := by
  cases chs with
  | nil => simp at h1
  | cons ch0 rest =>
    obtain ⟨cl, dt, ct⟩ := ch0
    have hcl : cl = false := hopen ⟨cl, dt, ct⟩ (List.mem_cons_self _ _)
    have hct : ct < 2 ^ 64 := hcnt ⟨cl, dt, ct⟩ (List.mem_cons_self _ _)
    subst hcl
    have hhd : writeAll (toLE buf.length) ⟨false, dt, ct⟩ =
        some ⟨false, dt ++ toLE buf.length, (ct + 8) % 2 ^ 64⟩ := by
      rw [writeAll, if_neg (toLE_ne_nil _)]
      simp [length_toLE]
    have hops : ∀ ch ∈ (⟨false, dt ++ toLE buf.length, (ct + 8) % 2 ^ 64⟩ :: rest : List WCh),
        ch.closed = false := by
      intro c hc
      rcases List.mem_cons.mp hc with h | h
      · rw [h]
      · exact hopen c (List.mem_cons_of_mem _ h)
    have hcts : ∀ ch ∈ (⟨false, dt ++ toLE buf.length, (ct + 8) % 2 ^ 64⟩ :: rest : List WCh),
        ch.count < 2 ^ 64 := by
      intro c hc
      rcases List.mem_cons.mp hc with h | h
      · rw [h]; exact Nat.mod_lt _ (by norm_num)
      · exact hcnt c (List.mem_cons_of_mem _ h)
    simp only [imuxWriteAsync, hhd, writeChunksA_open _ _ _ hops hcts]
    simp only [List.length_cons, imuxWire, wireChunks, List.zipWith_cons_cons]
    congr 2
    simp [wupd, List.append_assoc, Nat.mod_add_mod, List.length_append, length_toLE,
      Nat.add_assoc]

theorem imuxWriteSync_open (buf : List Nat) (chs : List WCh) (h1 : 1 ≤ chs.length)
    (hopen : ∀ ch ∈ chs, ch.closed = false) (hcnt : ∀ ch ∈ chs, ch.count < 2 ^ 64) :
    imuxWriteSync buf chs = .ok (List.zipWith wupd (imuxWire buf chs.length) chs) := by
  cases chs with
  | nil => simp at h1
  | cons ch0 rest =>
    obtain ⟨cl, dt, ct⟩ := ch0
    have hcl : cl = false := hopen ⟨cl, dt, ct⟩ (List.mem_cons_self _ _)
    have hct : ct < 2 ^ 64 := hcnt ⟨cl, dt, ct⟩ (List.mem_cons_self _ _)
    subst hcl
    have hhd : writeAll (toLE buf.length) ⟨false, dt, ct⟩ =
        some ⟨false, dt ++ toLE buf.length, (ct + 8) % 2 ^ 64⟩ := by
      rw [writeAll, if_neg (toLE_ne_nil _)]
      simp [length_toLE]
    have hops : ∀ ch ∈ (⟨false, dt ++ toLE buf.length, (ct + 8) % 2 ^ 64⟩ :: rest : List WCh),
        ch.closed = false := by
      intro c hc
      rcases List.mem_cons.mp hc with h | h
      · rw [h]
      · exact hopen c (List.mem_cons_of_mem _ h)
    have hcts : ∀ ch ∈ (⟨false, dt ++ toLE buf.length, (ct + 8) % 2 ^ 64⟩ :: rest : List WCh),
        ch.count < 2 ^ 64 := by
      intro c hc
      rcases List.mem_cons.mp hc with h | h
      · rw [h]; exact Nat.mod_lt _ (by norm_num)
      · exact hcnt c (List.mem_cons_of_mem _ h)
    simp only [imuxWriteSync, hhd, writeChunksS_open _ _ _ hops hcts]
    simp only [List.length_cons, imuxWire, wireChunks, List.zipWith_cons_cons]
    congr 2
    simp [wupd, List.append_assoc, Nat.mod_add_mod, List.length_append, length_toLE,
      Nat.add_assoc]

theorem imuxReadAsync_wire (B : List Nat) (rests : List (List Nat))
    (h1 : 1 ≤ rests.length) (hn64 : rests.length < 2 ^ 64) (hlen : B.length ≤ 2 ^ 53) :
    imuxReadAsync (List.zipWith (fun a b => a ++ b) (imuxWire B rests.length) rests)
      = .ok (B, rests) := by
  cases rests with
  | nil => simp at h1
  | cons r0 rrest =>
    rw [List.length_cons] at hn64
    have hmul : B.length ≤ (rrest.length + 1) * chunkSize B.length (rrest.length + 1) :=
      len_le_mul_chunkSize B.length (rrest.length + 1) (by omega) hn64 hlen
    simp only [List.length_cons, imuxWire, List.zipWith_cons_cons]
    rw [List.append_assoc]
    have h8 := readExact_append (toLE B.length)
      (B.take (chunkSize B.length (rrest.length + 1)) ++ r0)
    rw [length_toLE] at h8
    have hassemble : (B.take (chunkSize B.length (rrest.length + 1)) ++ r0) ::
        List.zipWith (fun a b => a ++ b)
          (wireChunks (chunkSize B.length (rrest.length + 1))
            (B.drop (chunkSize B.length (rrest.length + 1))) rrest.length) rrest =
        List.zipWith (fun a b => a ++ b)
          (wireChunks (chunkSize B.length (rrest.length + 1)) B (rrest.length + 1))
          (r0 :: rrest) := by
      rw [wireChunks, List.zipWith_cons_cons]
    have hrc := readChunksA_wire (chunkSize B.length (rrest.length + 1)) B (r0 :: rrest)
      (by rw [List.length_cons]; exact hmul)
    rw [List.length_cons] at hrc
    have hz : B.length - (rrest.length + 1) * chunkSize B.length (rrest.length + 1) = 0 := by
      omega
    simp only [imuxReadAsync, h8, List.length_zipWith, length_wireChunks, min_self]
    rw [fromLE_toLE B.length (by
      have hc : (2 : Nat) ^ 53 < 2 ^ 64 := by norm_num
      omega)]
    rw [hassemble]
    simp only [hrc, hz, flatten_wireChunks _ _ _ hmul]
    simp

theorem imuxReadSync_wire (B : List Nat) (rests : List (List Nat))
    (h1 : 1 ≤ rests.length) (hn64 : rests.length < 2 ^ 64) (hlen : B.length ≤ 2 ^ 53) :
    imuxReadSync (List.zipWith (fun a b => a ++ b) (imuxWire B rests.length) rests)
      = .ok (B, rests) := by
  cases rests with
  | nil => simp at h1
  | cons r0 rrest =>
    rw [List.length_cons] at hn64
    have hmul : B.length ≤ (rrest.length + 1) * chunkSize B.length (rrest.length + 1) :=
      len_le_mul_chunkSize B.length (rrest.length + 1) (by omega) hn64 hlen
    simp only [List.length_cons, imuxWire, List.zipWith_cons_cons]
    rw [List.append_assoc]
    have h8 := readExact_append (toLE B.length)
      (B.take (chunkSize B.length (rrest.length + 1)) ++ r0)
    rw [length_toLE] at h8
    have hassemble : (B.take (chunkSize B.length (rrest.length + 1)) ++ r0) ::
        List.zipWith (fun a b => a ++ b)
          (wireChunks (chunkSize B.length (rrest.length + 1))
            (B.drop (chunkSize B.length (rrest.length + 1))) rrest.length) rrest =
        List.zipWith (fun a b => a ++ b)
          (wireChunks (chunkSize B.length (rrest.length + 1)) B (rrest.length + 1))
          (r0 :: rrest) := by
      rw [wireChunks, List.zipWith_cons_cons]
    have hrc := readChunksS_wire (chunkSize B.length (rrest.length + 1)) B (r0 :: rrest)
      (by rw [List.length_cons]; exact hmul)
    rw [List.length_cons] at hrc
    have hz : B.length - (rrest.length + 1) * chunkSize B.length (rrest.length + 1) = 0 := by
      omega
    simp only [imuxReadSync, h8, List.length_zipWith, length_wireChunks, min_self]
    rw [fromLE_toLE B.length (by
      have hc : (2 : Nat) ^ 53 < 2 ^ 64 := by norm_num
      omega)]
    rw [hassemble]
    simp only [hrc, hz, flatten_wireChunks _ _ _ hmul]
    simp

theorem length_imuxWire (B : List Nat) (n : Nat) : (imuxWire B n).length = n := by
  cases n with
  | zero => rfl
  | succ m => simp [imuxWire, length_wireChunks]

theorem length_wiresOf (msgs : List (Nat × List Nat)) (n : Nat) :
    (wiresOf msgs n).length = n := by
  induction msgs with
  | nil => simp [wiresOf]
  | cons m rest ih =>
    simp [wiresOf, List.length_zipWith, length_imuxWire, ih]

theorem mem_zipWith_wupd {ws : List (List Nat)} {chs : List WCh} {c : WCh}
    (hc : c ∈ List.zipWith wupd ws chs) : ∃ w ch, ch ∈ chs ∧ c = wupd w ch := by
  induction ws generalizing chs with
  | nil => simp at hc
  | cons w ws ih =>
    cases chs with
    | nil => simp at hc
    | cons ch chs =>
      rw [List.zipWith_cons_cons] at hc
      rcases List.mem_cons.mp hc with h | h
      · exact ⟨w, ch, List.mem_cons_self _ _, h⟩
      · obtain ⟨w', ch', hm, he⟩ := ih h
        exact ⟨w', ch', List.mem_cons_of_mem _ hm, he⟩

theorem zipWith_wupd_closed {ws : List (List Nat)} {chs : List WCh}
    (hopen : ∀ ch ∈ chs, ch.closed = false) :
    ∀ c ∈ List.zipWith wupd ws chs, c.closed = false := by
  intro c hc
  obtain ⟨w, ch, hm, he⟩ := mem_zipWith_wupd hc
  rw [he, wupd]
  exact hopen ch hm

theorem zipWith_wupd_count {ws : List (List Nat)} {chs : List WCh} :
    ∀ c ∈ List.zipWith wupd ws chs, c.count < 2 ^ 64 := by
  intro c hc
  obtain ⟨w, ch, hm, he⟩ := mem_zipWith_wupd hc
  rw [he, wupd]
  exact Nat.mod_lt _ (by norm_num)

theorem data_zipWith_wupd (ws : List (List Nat)) (chs : List WCh) :
    (List.zipWith wupd ws chs).map WCh.data
      = List.zipWith (fun a b => a ++ b) (chs.map WCh.data) ws := by
  induction ws generalizing chs with
  | nil => simp
  | cons w ws ih =>
    cases chs with
    | nil => simp
    | cons ch chs => simp [wupd, ih]

theorem zipWith_append_nil_left (W : List (List Nat)) :
    List.zipWith (fun a b => a ++ b) (List.replicate W.length ([] : List Nat)) W = W := by
  induction W with
  | nil => rfl
  | cons w W ih => simp [List.replicate_succ, ih]

theorem zipWith_append_nil_right (W : List (List Nat)) :
    List.zipWith (fun a b => a ++ b) W (List.replicate W.length ([] : List Nat)) = W := by
  induction W with
  | nil => rfl
  | cons w W ih => simp [List.replicate_succ, ih]

theorem zipWith_append_assoc (a b c : List (List Nat)) :
    List.zipWith (fun x y => x ++ y) (List.zipWith (fun x y => x ++ y) a b) c
      = List.zipWith (fun x y => x ++ y) a (List.zipWith (fun x y => x ++ y) b c) := by
  induction a generalizing b c with
  | nil => simp
  | cons x a ih =>
    cases b with
    | nil => simp
    | cons y b =>
      cases c with
      | nil => simp
      | cons z c => simp [ih, List.append_assoc]

theorem imuxFlush_open (chs : List WCh) (hopen : ∀ ch ∈ chs, ch.closed = false) :
    imuxFlush chs = .ok chs := by
  rw [imuxFlush, if_pos]
  rw [List.all_eq_true]
  intro c hc
  rw [hopen c hc]
  rfl

theorem threadedWrite_open (d : Nat) (B : List Nat) (chs : List WCh) (h1 : 1 ≤ chs.length)
    (hopen : ∀ ch ∈ chs, ch.closed = false) (hcnt : ∀ ch ∈ chs, ch.count < 2 ^ 64) :
    threadedWrite d B chs = .ok (List.zipWith wupd (imuxWire B chs.length)
      (List.zipWith wupd (imuxWire [d] chs.length) chs)) := by
  have h2 := imuxWriteAsync_open [d] chs h1 hopen hcnt
  have hlen1 : (List.zipWith wupd (imuxWire [d] chs.length) chs).length = chs.length := by
    simp [List.length_zipWith, length_imuxWire]
  have h3 := imuxWriteAsync_open B (List.zipWith wupd (imuxWire [d] chs.length) chs)
    (by omega) (zipWith_wupd_closed hopen) zipWith_wupd_count
  rw [hlen1] at h3
  have h4 := imuxFlush_open
    (List.zipWith wupd (imuxWire B chs.length) (List.zipWith wupd (imuxWire [d] chs.length) chs))
    (zipWith_wupd_closed (zipWith_wupd_closed hopen))
  simp only [threadedWrite, h2, h3, h4]

theorem length_deliver (d : Nat) (B : List Nat) (inbs : List (List (List Nat))) :
    (deliver d B inbs).length = inbs.length := by
  simp [deliver]

theorem readLoop_step (fuel : Nat) (chs chs1 chs2 : List (List Nat)) (d : Nat)
    (B : List Nat) (inbs : List (List (List Nat)))
    (h1 : imuxReadAsync chs = .ok ([d], chs1))
    (h2 : imuxReadAsync chs1 = .ok (B, chs2))
    (hd : d < inbs.length) :
    readLoop (fuel + 1) chs inbs = readLoop fuel chs2 (deliver d B inbs) := by
  simp only [readLoop, h1, h2, if_pos hd]

theorem readLoop_stop (fuel : Nat) (chs : List (List Nat))
    (inbs : List (List (List Nat))) (h : imuxReadAsync chs = .ioError) :
    readLoop (fuel + 1) chs inbs = (inbs, .clean) := by
  simp only [readLoop, h]

theorem imuxReadAsync_empty (n : Nat) (hn : 1 ≤ n) :
    imuxReadAsync (List.replicate n ([] : List Nat)) = .ioError := by
  cases n with
  | zero => omega
  | succ m =>
    rw [List.replicate_succ]
    simp only [imuxReadAsync]
    rw [readExact, if_neg (by simp)]

theorem readLoop_routes (n : Nat) (hn : 1 ≤ n) (hn64 : n < 2 ^ 64) :
    ∀ (msgs : List (Nat × List Nat)) (inbs : List (List (List Nat))),
      (∀ p ∈ msgs, p.1 < inbs.length ∧ p.2.length ≤ 2 ^ 53) →
      readLoop (msgs.length + 1) (wiresOf msgs n) inbs
        = (msgs.foldl (fun acc p => deliver p.1 p.2 acc) inbs, .clean) := by
  intro msgs
  induction msgs with
  | nil =>
    intro inbs hmsg
    rw [wiresOf, List.length_nil, readLoop_stop 0 _ _ (imuxReadAsync_empty n hn)]
    rfl
  | cons m rest ih =>
    intro inbs hmsg
    obtain ⟨d, B⟩ := m
    have hd : d < inbs.length := (hmsg (d, B) (List.mem_cons_self _ _)).1
    have hB : B.length ≤ 2 ^ 53 := (hmsg (d, B) (List.mem_cons_self _ _)).2
    have hrests1len :
        (List.zipWith (fun a b => a ++ b) (imuxWire B n) (wiresOf rest n)).length = n := by
      simp [List.length_zipWith, length_imuxWire, length_wiresOf]
    have hr1 := imuxReadAsync_wire [d]
      (List.zipWith (fun a b => a ++ b) (imuxWire B n) (wiresOf rest n))
      (by rw [hrests1len]; omega) (by rw [hrests1len]; exact hn64) (by norm_num)
    rw [hrests1len] at hr1
    have hr2 := imuxReadAsync_wire B (wiresOf rest n)
      (by rw [length_wiresOf]; omega) (by rw [length_wiresOf]; exact hn64) hB
    rw [length_wiresOf] at hr2
    rw [List.length_cons, wiresOf,
      readLoop_step (rest.length + 1) _ _ _ d B inbs hr1 hr2 hd]
    rw [ih (deliver d B inbs) (fun p hp => by
      rw [length_deliver]
      exact hmsg p (List.mem_cons_of_mem _ hp))]
    rfl

theorem writeMsgs_open : ∀ (msgs : List (Nat × List Nat)) (chs : List WCh),
    1 ≤ chs.length →
    (∀ ch ∈ chs, ch.closed = false) → (∀ ch ∈ chs, ch.count < 2 ^ 64) →
    ∃ chsF, writeMsgs msgs chs = .ok chsF ∧ chsF.length = chs.length ∧
      (∀ ch ∈ chsF, ch.closed = false) ∧ (∀ ch ∈ chsF, ch.count < 2 ^ 64) ∧
      chsF.map WCh.data
        = List.zipWith (fun a b => a ++ b) (chs.map WCh.data) (wiresOf msgs chs.length) := by
  intro msgs
  induction msgs with
  | nil =>
    intro chs h1 hopen hcnt
    refine ⟨chs, rfl, rfl, hopen, hcnt, ?_⟩
    rw [wiresOf, show chs.length = (chs.map WCh.data).length by simp,
      zipWith_append_nil_right]
  | cons m rest ih =>
    intro chs h1 hopen hcnt
    obtain ⟨d, B⟩ := m
    have htw := threadedWrite_open d B chs h1 hopen hcnt
    have hXlen : (List.zipWith wupd (imuxWire B chs.length)
        (List.zipWith wupd (imuxWire [d] chs.length) chs)).length = chs.length := by
      simp [List.length_zipWith, length_imuxWire]
    have hXopen := @zipWith_wupd_closed (imuxWire B chs.length) _
      (@zipWith_wupd_closed (imuxWire [d] chs.length) _ hopen)
    obtain ⟨chsF, hw, hlen, hopenF, hcntF, hdata⟩ := ih
      (List.zipWith wupd (imuxWire B chs.length)
        (List.zipWith wupd (imuxWire [d] chs.length) chs))
      (by omega) hXopen zipWith_wupd_count
    rw [hXlen] at hdata
    refine ⟨chsF, ?_, hlen.trans hXlen, hopenF, hcntF, ?_⟩
    · simp only [writeMsgs, htw, hw]
    · rw [hdata, data_zipWith_wupd, data_zipWith_wupd,
        zipWith_append_assoc, zipWith_append_assoc]
      simp only [wiresOf]

theorem length_freshW (n : Nat) : (freshW n).length = n := by
  simp [freshW]

theorem freshW_open (n : Nat) : ∀ ch ∈ freshW n, ch.closed = false := by
  intro c hc
  rw [freshW] at hc
  rw [List.eq_of_mem_replicate hc]

theorem freshW_zero (n : Nat) : ∀ ch ∈ freshW n, ch.count = 0 := by
  intro c hc
  rw [freshW] at hc
  rw [List.eq_of_mem_replicate hc]

theorem freshW_cnt (n : Nat) : ∀ ch ∈ freshW n, ch.count < 2 ^ 64 := by
  intro c hc
  rw [freshW_zero n c hc]
  norm_num

theorem freshW_data (n : Nat) : (freshW n).map WCh.data = List.replicate n [] := by
  simp [freshW]

theorem chunkSize_pow53 : chunkSize (2 ^ 53 + 1) 1 = 2 ^ 53 := by decide

theorem imuxWire_getD_zero (B : List Nat) (n : Nat) (hn : 1 ≤ n) :
    (imuxWire B n).getD 0 [] = toLE B.length ++ B.take (chunkSize B.length n) := by
  cases n with
  | zero => omega
  | succ m => rfl

theorem imuxWire_getD (B : List Nat) (n i : Nat) (h1 : 1 ≤ i) (h2 : i < n) :
    (imuxWire B n).getD i []
      = (B.drop (i * chunkSize B.length n)).take (chunkSize B.length n) := by
  cases n with
  | zero => omega
  | succ m =>
    obtain ⟨j, rfl⟩ : ∃ j, i = j + 1 := ⟨i - 1, by omega⟩
    simp only [imuxWire, List.getD_cons_succ]
    rw [wireChunks_getD _ _ _ _ (by omega), List.drop_drop]
    congr 2
    ring

/-- Claim C1 (code bug): in `IMuxSync::read`, the chunk-phase `read_exact`
results are produced inside `thread::scope` spawns and never joined, so a
channel failure (here: EOF right after the header announcing 5 bytes) is
silently swallowed and the call returns `Ok` with a zero-filled buffer,
while `IMuxAsync::read` on the same input correctly returns an error. -/
theorem c1_sync_read_swallows_errors :
    imuxReadSync [toLE 5] = .ok ([0, 0, 0, 0, 0], [[]]) ∧
      imuxReadAsync [toLE 5] = .ioError := by decide

/-- Claim C2 counterexample: the `f64` chunk computation is not the exact
integer ceiling: at `len = 2^53 + 1`, `n = 1` the code computes `2^53`
(the quotient rounds to the nearest representable double) while
`max(MIN_CHUNK_SIZE, ceil(len / n)) = 2^53 + 1`. -/
theorem c2_counterexample :
    chunkSize (2 ^ 53 + 1) 1 ≠ chunkSizeSpec (2 ^ 53 + 1) 1 := by decide

/-- Claim C2 (amended): for every channel count `n` with `1 ≤ n < 2^64` and
message length `len ≤ 2^53` (the range in which binary64 arithmetic is
exact), the computed chunk size equals `max(MIN_CHUNK_SIZE, ceil(len / n))`
with the exact integer ceiling. -/
theorem c2_chunk_size (len n : Nat) (hn : 1 ≤ n) (hn64 : n < 2 ^ 64)
    (hlen : len ≤ 2 ^ 53) : chunkSize len n = chunkSizeSpec len n :=
  chunkSize_exact len n hn hn64 hlen

/-- Claim C2 witness: at `n = 16`, `len = 2^25` the chunk size is the exact
ceiling, namely `2,097,152`. -/
theorem c2_chunk_size_witness :
    chunkSize (2 ^ 25) 16 = chunkSizeSpec (2 ^ 25) 16 ∧
      chunkSize (2 ^ 25) 16 = 2097152 :=
  ⟨c2_chunk_size (2 ^ 25) 16 (by decide) (by decide) (by decide), by decide⟩

set_option maxRecDepth 4000 in
/-- Claim C5 counterexample: the clone counter is an `AtomicU8`, so it wraps
at 256: the 256th clone call returns identity `0` again — equal to the
original handle's identity and smaller than the 255th clone's. -/
theorem c5_counterexample :
    cloneId 256 = cloneId 0 ∧ ¬ cloneId 255 < cloneId 256 := by decide

/-- Claim C5 (amended): for up to `m ≤ 255` clone calls, identities start at
`0` for the original handle and are distinct and strictly increasing (the
shared counter starts at 1 and each clone atomically takes its value). -/
theorem c5_clone_ids (m : Nat) (hm : m ≤ 255) :
    cloneId 0 = 0 ∧ ∀ i j, i ≤ m → j ≤ m → i < j → cloneId i < cloneId j := by
  have hcc : ∀ k, k ≤ 254 → cloneCount k = k + 1 := by
    intro k
    induction k with
    | zero => intro _; rfl
    | succ k ih =>
      intro hk
      rw [cloneCount, ih (by omega), Nat.mod_eq_of_lt (by omega)]
  have hid : ∀ i, i ≤ 255 → cloneId i = i := by
    intro i hi
    cases i with
    | zero => rfl
    | succ j => rw [cloneId, hcc j (by omega)]
  exact ⟨rfl, fun i j hi hj hij => by
    rw [hid i (by omega), hid j (by omega)]; exact hij⟩

/-- Claim C5 witness: with the amended bound, concrete clone identities are
strictly increasing. -/
theorem c5_clone_ids_witness : cloneId 0 = 0 ∧ cloneId 3 < cloneId 5 :=
  ⟨(c5_clone_ids 255 (by decide)).1,
    (c5_clone_ids 255 (by decide)).2 3 5 (by decide) (by decide) (by decide)⟩

/-- Claim C10: `new` stores an empty channel vector without any validation,
and every subsequent `read`/`write` on a zero-channel multiplexer panics
(out-of-bounds `channels[0]`) rather than returning an error result, for
both the sync and async forms. -/
theorem c10_empty_channels :
    imuxNew ([] : List (List Nat)) = [] ∧
      imuxReadSync [] = .panicked ∧
      imuxReadAsync [] = .panicked ∧
      (∀ B : List Nat, imuxWriteSync B [] = .panicked) ∧
      (∀ B : List Nat, imuxWriteAsync B [] = .panicked) :=
  ⟨rfl, rfl, rfl, fun _ => rfl, fun _ => rfl⟩

/-- Claim C9: for every multiplexer write (sync and async forms alike) over
`n ≥ 1` open channels, channel 0 receives exactly the 8-byte little-endian
length header immediately followed by channel 0's own chunk, contiguously,
and every other channel `i` receives exactly its own chunk
`B[i*cs .. min((i+1)*cs, len))` — no header appears anywhere else. -/
theorem c9_header_framing (B : List Nat) (chs : List WCh) (h1 : 1 ≤ chs.length)
    (hopen : ∀ ch ∈ chs, ch.closed = false) (hcnt : ∀ ch ∈ chs, ch.count < 2 ^ 64) :
    imuxWriteSync B chs = .ok (List.zipWith wupd (imuxWire B chs.length) chs) ∧
      imuxWriteAsync B chs = .ok (List.zipWith wupd (imuxWire B chs.length) chs) ∧
      (imuxWire B chs.length).getD 0 []
        = toLE B.length ++ B.take (chunkSize B.length chs.length) ∧
      ∀ i, 1 ≤ i → i < chs.length →
        (imuxWire B chs.length).getD i []
          = (B.drop (i * chunkSize B.length chs.length)).take (chunkSize B.length chs.length) :=
  ⟨imuxWriteSync_open B chs h1 hopen hcnt,
    imuxWriteAsync_open B chs h1 hopen hcnt,
    imuxWire_getD_zero B chs.length h1,
    fun i hi1 hi2 => imuxWire_getD B chs.length i hi1 hi2⟩

/-- Claim C9 witness: a concrete two-channel write. -/
theorem c9_header_framing_witness :
    imuxWriteSync [1, 2] (freshW 2)
        = .ok (List.zipWith wupd (imuxWire [1, 2] (freshW 2).length) (freshW 2)) ∧
      imuxWriteAsync [1, 2] (freshW 2)
        = .ok (List.zipWith wupd (imuxWire [1, 2] (freshW 2).length) (freshW 2)) ∧
      (imuxWire [1, 2] (freshW 2).length).getD 0 []
        = toLE ([1, 2] : List Nat).length
            ++ ([1, 2] : List Nat).take (chunkSize ([1, 2] : List Nat).length (freshW 2).length) ∧
      ∀ i, 1 ≤ i → i < (freshW 2).length →
        (imuxWire [1, 2] (freshW 2).length).getD i []
          = (([1, 2] : List Nat).drop (i * chunkSize ([1, 2] : List Nat).length (freshW 2).length)).take
              (chunkSize ([1, 2] : List Nat).length (freshW 2).length) :=
  c9_header_framing [1, 2] (freshW 2) (by decide) (by decide) (by decide)

/-- Claim C3 counterexample: at `n = 1`, `len = 2^53 + 1` the computed chunk
size is `2^53` (f64 rounding), chunks beyond the channel count are dropped by
the `zip`, and byte `2^53` belongs to no channel's range: the union of the
`n` chunk ranges is not `[0, len)`. -/
theorem c3_counterexample :
    ¬ (∀ p, p < 2 ^ 53 + 1 →
        ∃! i, i < 1 ∧ i * chunkSize (2 ^ 53 + 1) 1 ≤ p ∧
          p < min ((i + 1) * chunkSize (2 ^ 53 + 1) 1) (2 ^ 53 + 1)) := by
  intro h
  obtain ⟨i, ⟨hi, hle, hlt⟩, _⟩ := h (2 ^ 53) (by omega)
  rw [chunkSize_pow53] at hlt
  have hi0 : i = 0 := by omega
  subst hi0
  simp at hlt

/-- Claim C3 (amended): for `1 ≤ n < 2^64` and `len ≤ 2^53`, the `n` chunk
ranges `[i*cs, min((i+1)*cs, len))` are pairwise disjoint with union exactly
`[0, len)` (every position belongs to exactly one range, `i = p / cs`), and
the write and read loops transfer exactly these ranges on these channels:
the write puts the header plus range 0 on channel 0 and exactly range `i` on
channel `i`; the read loop consumes from channel `i` exactly the bytes of
range `i` (chunk `i` of the wire, leaving any further channel content
untouched) and reassembles them into exactly the original buffer. -/
theorem c3_chunk_coverage (n len : Nat) (hn : 1 ≤ n) (hn64 : n < 2 ^ 64)
    (hlen : len ≤ 2 ^ 53) :
    (∀ p, p < len →
      ∃! i, i < n ∧ i * chunkSize len n ≤ p ∧
        p < min ((i + 1) * chunkSize len n) len) ∧
    ∀ B : List Nat, B.length = len →
      imuxWriteSync B (freshW n) = .ok (List.zipWith wupd (imuxWire B n) (freshW n)) ∧
      ((imuxWire B n).getD 0 [] = toLE len ++ B.take (chunkSize len n)) ∧
      (∀ i, 1 ≤ i → i < n →
        (imuxWire B n).getD i []
          = (B.drop (i * chunkSize len n)).take (chunkSize len n)) ∧
      (∀ i, i < n →
        (wireChunks (chunkSize len n) B n).getD i []
          = (B.drop (i * chunkSize len n)).take (chunkSize len n)) ∧
      (∀ rests : List (List Nat), rests.length = n →
        readChunksS (chunkSize len n) len
            (List.zipWith (fun a b => a ++ b) (wireChunks (chunkSize len n) B n) rests)
          = (wireChunks (chunkSize len n) B n, rests)) ∧
      imuxReadSync (List.zipWith (fun a b => a ++ b) (imuxWire B n) (List.replicate n []))
        = .ok (B, List.replicate n []) := by
  have hcs : 0 < chunkSize len n := chunkSize_pos len n
  have hmul : len ≤ n * chunkSize len n := len_le_mul_chunkSize len n hn hn64 hlen
  constructor
  · intro p hp
    have hdm := Nat.div_add_mod p (chunkSize len n)
    have hmd : p % chunkSize len n < chunkSize len n := Nat.mod_lt p hcs
    have hcomm : p / chunkSize len n * chunkSize len n
        = chunkSize len n * (p / chunkSize len n) := Nat.mul_comm _ _
    have hsucc : (p / chunkSize len n + 1) * chunkSize len n
        = p / chunkSize len n * chunkSize len n + chunkSize len n := by ring
    refine ⟨p / chunkSize len n, ⟨?_, by omega, ?_⟩, ?_⟩
    · rw [Nat.div_lt_iff_lt_mul hcs]
      calc p < len := hp
        _ ≤ n * chunkSize len n := hmul
        _ = n * chunkSize len n := rfl
    · exact lt_min (by omega) hp
    · intro j hj
      exact (Nat.div_eq_of_lt_le hj.2.1
        (lt_of_lt_of_le hj.2.2 (min_le_left _ _))).symm
  · intro B hB
    refine ⟨?_, ?_, ?_, ?_, ?_, ?_⟩
    · have := imuxWriteSync_open B (freshW n)
        (by rw [length_freshW]; omega) (freshW_open n) (freshW_cnt n)
      rwa [length_freshW] at this
    · rw [imuxWire_getD_zero B n hn, hB]
    · intro i hi1 hi2
      rw [imuxWire_getD B n i hi1 hi2, hB]
    · intro i hi
      rw [wireChunks_getD (chunkSize len n) B n i hi]
    · intro rests hrl
      have h := readChunksS_wire (chunkSize len n) B rests (by rw [hrl, hB]; exact hmul)
      rw [hB, hrl] at h
      exact h
    · have hr := imuxReadSync_wire B (List.replicate n [])
        (by rw [List.length_replicate]; omega)
        (by rw [List.length_replicate]; exact hn64) (by rw [hB]; exact hlen)
      rw [List.length_replicate] at hr
      exact hr

/-- Claim C3 witness: concrete coverage at `n = 2`, `len = 5`. -/
theorem c3_chunk_coverage_witness :
    (∀ p, p < 5 →
      ∃! i, i < 2 ∧ i * chunkSize 5 2 ≤ p ∧
        p < min ((i + 1) * chunkSize 5 2) 5) ∧
    ∀ B : List Nat, B.length = 5 →
      imuxWriteSync B (freshW 2) = .ok (List.zipWith wupd (imuxWire B 2) (freshW 2)) ∧
      ((imuxWire B 2).getD 0 [] = toLE 5 ++ B.take (chunkSize 5 2)) ∧
      (∀ i, 1 ≤ i → i < 2 →
        (imuxWire B 2).getD i [] = (B.drop (i * chunkSize 5 2)).take (chunkSize 5 2)) ∧
      (∀ i, i < 2 →
        (wireChunks (chunkSize 5 2) B 2).getD i []
          = (B.drop (i * chunkSize 5 2)).take (chunkSize 5 2)) ∧
      (∀ rests : List (List Nat), rests.length = 2 →
        readChunksS (chunkSize 5 2) 5
            (List.zipWith (fun a b => a ++ b) (wireChunks (chunkSize 5 2) B 2) rests)
          = (wireChunks (chunkSize 5 2) B 2, rests)) ∧
      imuxReadSync (List.zipWith (fun a b => a ++ b) (imuxWire B 2) (List.replicate 2 []))
        = .ok (B, List.replicate 2 []) :=
  c3_chunk_coverage 2 5 (by decide) (by decide) (by decide)

/-- Claim C4 (amended): for every channel count `1 ≤ n < 2^64` and buffer `B`
with `B.length ≤ 2^53` (so the f64 chunk plan is exact and covers the
message), writing `B` through an `n`-channel multiplexer and reading it back
through a peer over the same `n` channels yields exactly `B`, consuming the
wire completely.  This covers all of `n ∈ {1, 2, 16}` and
`len ∈ {0, 1, 8191, 8192, 1000000}`. -/
theorem c4_round_trip (n : Nat) (B : List Nat) (hn : 1 ≤ n) (hn64 : n < 2 ^ 64)
    (hlen : B.length ≤ 2 ^ 53) :
    ∃ chs, imuxWriteSync B (freshW n) = .ok chs ∧
      imuxReadSync (chs.map WCh.data) = .ok (B, List.replicate n []) := by
  refine ⟨List.zipWith wupd (imuxWire B n) (freshW n), ?_, ?_⟩
  · have hws := imuxWriteSync_open B (freshW n) (by rw [length_freshW]; omega)
      (freshW_open n) (freshW_cnt n)
    rwa [length_freshW] at hws
  · rw [data_zipWith_wupd, freshW_data]
    have hL : List.zipWith (fun a b => a ++ b) (List.replicate n []) (imuxWire B n)
        = imuxWire B n := by
      rw [show (List.replicate n ([] : List Nat))
            = List.replicate (imuxWire B n).length [] from by rw [length_imuxWire],
        zipWith_append_nil_left]
    rw [hL]
    have hr := imuxReadSync_wire B (List.replicate n [])
      (by rw [List.length_replicate]; omega)
      (by rw [List.length_replicate]; exact hn64) hlen
    rw [List.length_replicate] at hr
    have hR : imuxWire B n
        = List.zipWith (fun a b => a ++ b) (imuxWire B n) (List.replicate n []) := by
      conv_rhs => rw [show (List.replicate n ([] : List Nat))
            = List.replicate (imuxWire B n).length [] from by rw [length_imuxWire],
        zipWith_append_nil_right]
    rw [hR]
    exact hr

/-- Claim C4 witness: a concrete two-channel round trip. -/
theorem c4_round_trip_witness :
    ∃ chs, imuxWriteSync [1, 2, 3] (freshW 2) = .ok chs ∧
      imuxReadSync (chs.map WCh.data) = .ok ([1, 2, 3], List.replicate 2 []) :=
  c4_round_trip 2 [1, 2, 3] (by decide) (by decide) (by decide)

theorem readChunkSync_replicate_pow53 :
    readChunkSync (2 ^ 53) (List.replicate (2 ^ 53) 1)
      = (List.replicate (2 ^ 53) 1, []) := by
  rw [readChunkSync, if_pos (by rw [List.length_replicate])]
  rw [List.take_replicate, List.drop_replicate]
  norm_num

theorem readChunksS_pow53 :
    readChunksS (2 ^ 53) (2 ^ 53 + 1) [List.replicate (2 ^ 53) 1]
      = ([List.replicate (2 ^ 53) 1], [[]]) := by
  rw [readChunksS, readChunksS]
  have hmin : min (2 ^ 53) (2 ^ 53 + 1) = 2 ^ 53 := by norm_num
  rw [hmin, readChunkSync_replicate_pow53]

theorem imuxReadSync_single (L : Nat) (X : List Nat) (hL : L < 2 ^ 64) :
    imuxReadSync [toLE L ++ X]
      = .ok ((readChunksS (chunkSize L 1) L [X]).1.flatten
          ++ List.replicate (L - 1 * chunkSize L 1) 0,
        (readChunksS (chunkSize L 1) L [X]).2) := by
  simp only [imuxReadSync]
  have h8 := readExact_append (toLE L) X
  rw [length_toLE] at h8
  simp only [h8, List.length_nil, List.length_cons, Nat.zero_add]
  rw [fromLE_toLE L hL]

theorem imuxWire_pow53 (v : Nat) :
    imuxWire (List.replicate (2 ^ 53 + 1) v) 1
      = [toLE (2 ^ 53 + 1) ++ List.replicate (2 ^ 53) v] := by
  show (toLE (List.replicate (2 ^ 53 + 1) v).length ++
      (List.replicate (2 ^ 53 + 1) v).take
        (chunkSize (List.replicate (2 ^ 53 + 1) v).length 1)) ::
      wireChunks (chunkSize (List.replicate (2 ^ 53 + 1) v).length 1)
        ((List.replicate (2 ^ 53 + 1) v).drop
          (chunkSize (List.replicate (2 ^ 53 + 1) v).length 1)) 0
    = [toLE (2 ^ 53 + 1) ++ List.replicate (2 ^ 53) v]
  rw [List.length_replicate, chunkSize_pow53, wireChunks, List.take_replicate]
  norm_num

/-- Claim C4 counterexample: at `n = 1` and `len = 2^53 + 1` the f64 chunk
size is `2^53`, so `buf.chunks` yields two chunks but the `zip` with the
single channel drops the second: the write sends only the first `2^53`
bytes, the read leaves the last byte zero, and the round trip returns
successfully with a buffer that differs from the original in its last
byte. -/
theorem c4_counterexample :
    ∃ chs out rest,
      imuxWriteSync (List.replicate (2 ^ 53 + 1) 1) (freshW 1) = .ok chs ∧
      imuxReadSync (chs.map WCh.data) = .ok (out, rest) ∧
      out ≠ List.replicate (2 ^ 53 + 1) 1 := by
  have hw := imuxWriteSync_open (List.replicate (2 ^ 53 + 1) 1) (freshW 1)
    (by rw [length_freshW]) (freshW_open 1) (freshW_cnt 1)
  rw [length_freshW] at hw
  refine ⟨_, List.replicate (2 ^ 53) 1 ++ [0], [[]], hw, ?_, ?_⟩
  · rw [data_zipWith_wupd, freshW_data]
    have hL : List.zipWith (fun a b => a ++ b) (List.replicate 1 [])
        (imuxWire (List.replicate (2 ^ 53 + 1) 1) 1)
        = imuxWire (List.replicate (2 ^ 53 + 1) 1) 1 := by
      rw [show (List.replicate 1 ([] : List Nat))
            = List.replicate (imuxWire (List.replicate (2 ^ 53 + 1) 1) 1).length [] from by
          rw [length_imuxWire],
        zipWith_append_nil_left]
    rw [hL, imuxWire_pow53 1]
    rw [imuxReadSync_single (2 ^ 53 + 1) (List.replicate (2 ^ 53) 1) (by norm_num)]
    rw [chunkSize_pow53, readChunksS_pow53]
    have hsub : 2 ^ 53 + 1 - 1 * 2 ^ 53 = 1 := by norm_num
    simp only [hsub, List.flatten_cons, List.flatten_nil, List.append_nil,
      List.replicate_one]
  · intro he
    rw [show (2 : Nat) ^ 53 + 1 = (2 ^ 53) + 1 from rfl,
      List.replicate_succ' (2 ^ 53) (1 : Nat)] at he
    have hx := List.append_cancel_left he
    simp at hx

/-- Claim C7 (amended): `ThreadedWriter::write` with identity `d` and a
payload `B` of length at most `2^53`, performed atomically under the lock
(modelled as one step on the shared multiplexer state), puts exactly two
consecutive multiplexer-level messages on the wire: a peer multiplexer reads
back first the 1-byte identity message `[d]`, then the payload `B`, and
nothing else (the channels are then fully consumed).  Beyond `2^53` the
payload message is truncated on the wire by the f64 chunk plan (see the
counterexample). -/
theorem c7_threaded_write (n d : Nat) (B : List Nat) (hn : 1 ≤ n) (hn64 : n < 2 ^ 64)
    (hd : d < 256) (hlen : B.length ≤ 2 ^ 53) :
    ∃ chs1, threadedWrite d B (freshW n) = .ok chs1 ∧
      imuxReadAsync (chs1.map WCh.data) = .ok ([d], imuxWire B n) ∧
      imuxReadAsync (imuxWire B n) = .ok (B, List.replicate n []) := by
  have htw := threadedWrite_open d B (freshW n) (by rw [length_freshW]; omega)
    (freshW_open n) (freshW_cnt n)
  rw [length_freshW] at htw
  refine ⟨_, htw, ?_, ?_⟩
  · rw [data_zipWith_wupd, data_zipWith_wupd, freshW_data]
    have h1' : List.zipWith (fun a b => a ++ b) (List.replicate n []) (imuxWire [d] n)
        = imuxWire [d] n := by
      rw [show (List.replicate n ([] : List Nat))
            = List.replicate (imuxWire [d] n).length [] from by rw [length_imuxWire],
        zipWith_append_nil_left]
    rw [h1']
    have hr := imuxReadAsync_wire [d] (imuxWire B n)
      (by rw [length_imuxWire]; omega) (by rw [length_imuxWire]; exact hn64)
      (by simp)
    rwa [length_imuxWire] at hr
  · have hr := imuxReadAsync_wire B (List.replicate n [])
      (by rw [List.length_replicate]; omega)
      (by rw [List.length_replicate]; exact hn64) hlen
    rw [List.length_replicate] at hr
    have hR : imuxWire B n
        = List.zipWith (fun a b => a ++ b) (imuxWire B n) (List.replicate n []) := by
      conv_rhs => rw [show (List.replicate n ([] : List Nat))
            = List.replicate (imuxWire B n).length [] from by rw [length_imuxWire],
        zipWith_append_nil_right]
    rw [hR]
    exact hr

/-- Claim C7 witness: a concrete single-channel write of identity 3 and
payload `[9]`. -/
theorem c7_threaded_write_witness :
    ∃ chs1, threadedWrite 3 [9] (freshW 1) = .ok chs1 ∧
      imuxReadAsync (chs1.map WCh.data) = .ok ([3], imuxWire [9] 1) ∧
      imuxReadAsync (imuxWire [9] 1) = .ok ([9], List.replicate 1 []) :=
  c7_threaded_write 1 3 [9] (by decide) (by decide) (by decide) (by decide)

/-- Claim C8: feeding the background pump the wire produced by any sequence
of threaded writes, it iterates: reads one message whose first byte is the
sender identity, reads a second message as the body, delivers the body to
the inbox at that identity's index; when the wire is exhausted the next
header read fails and the loop exits cleanly, without retrying. -/
theorem c8_read_loop (n k : Nat) (msgs : List (Nat × List Nat)) (hn : 1 ≤ n)
    (hn64 : n < 2 ^ 64)
    (hmsg : ∀ p ∈ msgs, p.1 < k ∧ p.2.length ≤ 2 ^ 53) :
    ∃ chsF, writeMsgs msgs (freshW n) = .ok chsF ∧
      readLoop (msgs.length + 1) (chsF.map WCh.data)
          (List.replicate k ([] : List (List Nat)))
        = (msgs.foldl (fun acc p => deliver p.1 p.2 acc) (List.replicate k []), .clean) := by
  obtain ⟨chsF, hw, hlen, _, _, hdata⟩ := writeMsgs_open msgs (freshW n)
    (by rw [length_freshW]; omega) (freshW_open n) (freshW_cnt n)
  rw [length_freshW] at hdata
  refine ⟨chsF, hw, ?_⟩
  rw [hdata, freshW_data]
  have hL : List.zipWith (fun a b => a ++ b) (List.replicate n []) (wiresOf msgs n)
      = wiresOf msgs n := by
    rw [show (List.replicate n ([] : List Nat))
          = List.replicate (wiresOf msgs n).length [] from by rw [length_wiresOf],
      zipWith_append_nil_left]
  rw [hL]
  exact readLoop_routes n hn hn64 msgs (List.replicate k [])
    (fun p hp => by rw [List.length_replicate]; exact hmsg p hp)

/-- Claim C8 witness: two messages from two identities over one channel,
routed to two inboxes. -/
theorem c8_read_loop_witness :
    ∃ chsF, writeMsgs [(0, [4]), (1, [5, 6])] (freshW 1) = .ok chsF ∧
      readLoop ([(0, [4]), (1, [5, 6])].length + 1) (chsF.map WCh.data)
          (List.replicate 2 ([] : List (List Nat)))
        = ([(0, [4]), (1, [5, 6])].foldl (fun acc p => deliver p.1 p.2 acc)
            (List.replicate 2 []), .clean) :=
  c8_read_loop 1 2 [(0, [4]), (1, [5, 6])] (by decide) (by decide) (by decide)

theorem sum_length_imuxWire (B : List Nat) (n : Nat) (hn : 1 ≤ n)
    (hle : B.length ≤ n * chunkSize B.length n) :
    ((imuxWire B n).map List.length).sum = 8 + B.length := by
  cases n with
  | zero => omega
  | succ m =>
    simp only [imuxWire, List.map_cons, List.sum_cons, List.length_append, length_toLE,
      List.length_take, sum_length_wireChunks, List.length_drop]
    have hmul : (m + 1) * chunkSize B.length (m + 1)
        = m * chunkSize B.length (m + 1) + chunkSize B.length (m + 1) := by ring
    omega

theorem countFold_zero : ∀ (ws : List (List Nat)) (chs : List WCh) (acc : Nat),
    chs.length = ws.length → (∀ ch ∈ chs, ch.count = 0) →
    acc + (ws.map List.length).sum < 2 ^ 64 →
    List.foldl (fun a ch => (a + ch.count) % 2 ^ 64) acc (List.zipWith wupd ws chs)
      = acc + (ws.map List.length).sum := by
  intro ws
  induction ws with
  | nil =>
    intro chs acc hl hz hs
    have hchs : chs = [] := List.eq_nil_of_length_eq_zero (by simpa using hl)
    subst hchs
    simp
  | cons w ws ih =>
    intro chs acc hl hz hs
    cases chs with
    | nil => simp at hl
    | cons ch chs =>
      simp only [List.map_cons, List.sum_cons] at hs
      rw [List.zipWith_cons_cons, List.foldl_cons]
      have hch0 : ch.count = 0 := hz ch (List.mem_cons_self _ _)
      have hwc : (acc + (wupd w ch).count) % 2 ^ 64 = acc + w.length := by
        rw [wupd]
        simp only [hch0, Nat.zero_add]
        rw [Nat.mod_eq_of_lt (by omega), Nat.mod_eq_of_lt (by omega)]
      rw [hwc, ih chs (acc + w.length) (by simpa using hl)
        (fun c hc => hz c (List.mem_cons_of_mem _ hc)) (by omega)]
      simp only [List.map_cons, List.sum_cons]
      omega

theorem imuxCount_write_zero (B : List Nat) (chs : List WCh)
    (h1 : 1 ≤ chs.length) (hn64 : chs.length < 2 ^ 64) (hlen : B.length ≤ 2 ^ 53)
    (hz : ∀ ch ∈ chs, ch.count = 0) :
    imuxCount (List.zipWith wupd (imuxWire B chs.length) chs) = 8 + B.length := by
  have hsum : ((imuxWire B chs.length).map List.length).sum = 8 + B.length :=
    sum_length_imuxWire B chs.length h1
      (len_le_mul_chunkSize B.length chs.length h1 hn64 hlen)
  rw [imuxCount, countFold_zero (imuxWire B chs.length) chs 0
    (by rw [length_imuxWire]) hz (by
      rw [hsum]
      have hb : (2 : Nat) ^ 53 < 2 ^ 64 := by norm_num
      omega), hsum]
  omega

theorem imuxCount_all_zero : ∀ (chs : List WCh), (∀ ch ∈ chs, ch.count = 0) →
    imuxCount chs = 0 := by
  have aux : ∀ (chs : List WCh) (acc : Nat), (∀ ch ∈ chs, ch.count = 0) → acc < 2 ^ 64 →
      List.foldl (fun a ch => (a + ch.count) % 2 ^ 64) acc chs = acc := by
    intro chs
    induction chs with
    | nil => intro acc _ _; rfl
    | cons ch chs ih =>
      intro acc hz hacc
      rw [List.foldl_cons, hz ch (List.mem_cons_self _ _), Nat.add_zero,
        Nat.mod_eq_of_lt hacc, ih acc (fun c hc => hz c (List.mem_cons_of_mem _ hc)) hacc]
  intro chs hz
  exact aux chs 0 hz (by norm_num)

theorem imuxReset_zero (chs : List WCh) : ∀ ch ∈ imuxReset chs, ch.count = 0 := by
  intro c hc
  rw [imuxReset] at hc
  obtain ⟨ch, _, rfl⟩ := List.mem_map.mp hc
  rfl

theorem imuxReset_closed (chs : List WCh) (hopen : ∀ ch ∈ chs, ch.closed = false) :
    ∀ ch ∈ imuxReset chs, ch.closed = false := by
  intro c hc
  rw [imuxReset] at hc
  obtain ⟨ch, hm, rfl⟩ := List.mem_map.mp hc
  exact hopen ch hm

theorem length_imuxReset (chs : List WCh) : (imuxReset chs).length = chs.length := by
  simp [imuxReset]

/-- Claim C6 (amended): over `1 ≤ n < 2^64` channels wrapped in `CountingIO`
with zeroed counters, one successful write of a buffer with
`len ≤ 2^53` followed by flush leaves the aggregate `count()` at exactly
`8 + len` (header plus payload); `reset()` zeroes the aggregate, and the
next identical write plus flush yields `8 + len` again, independent of the
data previously accumulated on the channels. -/
theorem c6_counting (B : List Nat) (chs : List WCh) (h1 : 1 ≤ chs.length)
    (hn64 : chs.length < 2 ^ 64) (hlen : B.length ≤ 2 ^ 53)
    (hopen : ∀ ch ∈ chs, ch.closed = false) (hz : ∀ ch ∈ chs, ch.count = 0) :
    ∃ chs1, imuxWriteSync B chs = .ok chs1 ∧ imuxFlush chs1 = .ok chs1 ∧
      imuxCount chs1 = 8 + B.length ∧
      imuxCount (imuxReset chs1) = 0 ∧
      ∃ chs2, imuxWriteSync B (imuxReset chs1) = .ok chs2 ∧
        imuxFlush chs2 = .ok chs2 ∧ imuxCount chs2 = 8 + B.length := by
  have hcnt : ∀ ch ∈ chs, ch.count < 2 ^ 64 := fun c hc => by
    rw [hz c hc]; norm_num
  refine ⟨List.zipWith wupd (imuxWire B chs.length) chs,
    imuxWriteSync_open B chs h1 hopen hcnt,
    imuxFlush_open _ (zipWith_wupd_closed hopen),
    imuxCount_write_zero B chs h1 hn64 hlen hz,
    imuxCount_all_zero _ (imuxReset_zero _), ?_⟩
  have hrlen : (imuxReset (List.zipWith wupd (imuxWire B chs.length) chs)).length
      = chs.length := by
    rw [length_imuxReset, List.length_zipWith, length_imuxWire, min_self]
  have hropen := imuxReset_closed (List.zipWith wupd (imuxWire B chs.length) chs)
    (@zipWith_wupd_closed (imuxWire B chs.length) _ hopen)
  have hrz := imuxReset_zero (List.zipWith wupd (imuxWire B chs.length) chs)
  have hrcnt : ∀ ch ∈ imuxReset (List.zipWith wupd (imuxWire B chs.length) chs),
      ch.count < 2 ^ 64 := fun c hc => by rw [hrz c hc]; norm_num
  have hw2 := imuxWriteSync_open B _ (by rw [hrlen]; exact h1) hropen hrcnt
  rw [hrlen] at hw2
  refine ⟨_, hw2, imuxFlush_open _ (zipWith_wupd_closed hropen), ?_⟩
  have hc2 := imuxCount_write_zero B
    (imuxReset (List.zipWith wupd (imuxWire B chs.length) chs))
    (by rw [hrlen]; exact h1) (by rw [hrlen]; exact hn64) hlen hrz
  rwa [hrlen] at hc2

/-- Claim C6 witness: two channels, payload `[7,7,7]`: aggregate count is
`8 + 3` after write plus flush, `0` after reset, and `8 + 3` again. -/
theorem c6_counting_witness :
    ∃ chs1, imuxWriteSync [7, 7, 7] (freshW 2) = .ok chs1 ∧
      imuxFlush chs1 = .ok chs1 ∧
      imuxCount chs1 = 8 + ([7, 7, 7] : List Nat).length ∧
      imuxCount (imuxReset chs1) = 0 ∧
      ∃ chs2, imuxWriteSync [7, 7, 7] (imuxReset chs1) = .ok chs2 ∧
        imuxFlush chs2 = .ok chs2 ∧
        imuxCount chs2 = 8 + ([7, 7, 7] : List Nat).length :=
  c6_counting [7, 7, 7] (freshW 2) (by decide) (by decide) (by decide)
    (by decide) (by decide)

theorem imuxCount_single (w : List Nat) (hw : w.length < 2 ^ 64) :
    imuxCount (List.zipWith wupd [w] [(⟨false, [], 0⟩ : WCh)]) = w.length := by
  simp only [List.zipWith_cons_cons, List.zipWith_nil_right]
  simp only [imuxCount, List.foldl_cons, List.foldl_nil, wupd]
  simp only [Nat.zero_add]
  rw [Nat.mod_eq_of_lt hw, Nat.mod_eq_of_lt hw]

/-- Claim C6 counterexample: at `n = 1` and `len = 2^53 + 1` the write
succeeds but, because the f64 chunk size is `2^53` and the `zip` drops the
second chunk, only `8 + 2^53` bytes cross the wire: after the write and
flush the aggregate counter is `8 + 2^53`, not `8 + len`. -/
theorem c6_counterexample :
    ∃ chs1, imuxWriteSync (List.replicate (2 ^ 53 + 1) 0) (freshW 1) = .ok chs1 ∧
      imuxFlush chs1 = .ok chs1 ∧
      imuxCount chs1 = 8 + 2 ^ 53 ∧
      8 + 2 ^ 53 ≠ 8 + (List.replicate (2 ^ 53 + 1) (0 : Nat)).length := by
  have hw := imuxWriteSync_open (List.replicate (2 ^ 53 + 1) 0) (freshW 1)
    (by rw [length_freshW]) (freshW_open 1) (freshW_cnt 1)
  rw [length_freshW] at hw
  refine ⟨_, hw, imuxFlush_open _
    (@zipWith_wupd_closed (imuxWire (List.replicate (2 ^ 53 + 1) 0) 1) _
      (freshW_open 1)), ?_, ?_⟩
  · rw [imuxWire_pow53 0, show freshW 1 = [⟨false, [], 0⟩] from rfl]
    have hlw : (toLE (2 ^ 53 + 1) ++ List.replicate (2 ^ 53) (0 : Nat)).length
        = 8 + 2 ^ 53 := by
      rw [List.length_append, length_toLE, List.length_replicate]
    rw [imuxCount_single _ (by rw [hlw]; norm_num), hlw]
  · rw [List.length_replicate]
    norm_num

theorem readChunksA_single (cs L : Nat) (X : List Nat) (hX : X.length = min cs L) :
    readChunksA cs L [X] = some ([X], [[]]) := by
  have hre : readExact (min cs L) X = some (X, []) := by
    have h := readExact_append X []
    rw [List.append_nil] at h
    rw [← hX]
    exact h
  simp only [readChunksA, hre]

theorem imuxReadAsync_single (L : Nat) (X : List Nat)
    (q : List (List Nat) × List (List Nat)) (hL : L < 2 ^ 64)
    (hq : readChunksA (chunkSize L 1) L [X] = some q) :
    imuxReadAsync [toLE L ++ X]
      = .ok (q.1.flatten ++ List.replicate (L - 1 * chunkSize L 1) 0, q.2) := by
  simp only [imuxReadAsync]
  have h8 := readExact_append (toLE L) X
  rw [length_toLE] at h8
  simp only [h8, List.length_nil, List.length_cons, Nat.zero_add]
  rw [fromLE_toLE L hL]
  simp only [hq]

/-- Claim C7 counterexample: with a payload of length `2^53 + 1` over one
channel, `ThreadedWriter::write` succeeds, and the peer reads the identity
message correctly, but the second multiplexer-level message is not a message
containing `bytes`: the f64 chunk plan truncates the payload on the wire and
the peer's read returns a buffer ending in a zero byte instead of the
original byte. -/
theorem c7_counterexample :
    ∃ chs1 mid out rest,
      threadedWrite 3 (List.replicate (2 ^ 53 + 1) 1) (freshW 1) = .ok chs1 ∧
      imuxReadAsync (chs1.map WCh.data) = .ok ([3], mid) ∧
      imuxReadAsync mid = .ok (out, rest) ∧
      out ≠ List.replicate (2 ^ 53 + 1) 1 := by
  have htw := threadedWrite_open 3 (List.replicate (2 ^ 53 + 1) 1) (freshW 1)
    (by rw [length_freshW]) (freshW_open 1) (freshW_cnt 1)
  rw [length_freshW] at htw
  refine ⟨_, imuxWire (List.replicate (2 ^ 53 + 1) 1) 1,
    List.replicate (2 ^ 53) 1 ++ [0], [[]], htw, ?_, ?_, ?_⟩
  · rw [data_zipWith_wupd, data_zipWith_wupd, freshW_data]
    have h1' : List.zipWith (fun a b => a ++ b) (List.replicate 1 [])
        (imuxWire [3] 1) = imuxWire [3] 1 := by
      rw [show (List.replicate 1 ([] : List Nat))
            = List.replicate (imuxWire [3] 1).length [] from by rw [length_imuxWire],
        zipWith_append_nil_left]
    rw [h1']
    have hr := imuxReadAsync_wire [3] (imuxWire (List.replicate (2 ^ 53 + 1) 1) 1)
      (by rw [length_imuxWire]) (by rw [length_imuxWire]; norm_num) (by simp)
    rwa [length_imuxWire] at hr
  · rw [imuxWire_pow53 1]
    rw [imuxReadAsync_single (2 ^ 53 + 1) (List.replicate (2 ^ 53) 1)
      ([List.replicate (2 ^ 53) 1], [[]]) (by norm_num)
      (by
        rw [chunkSize_pow53]
        exact readChunksA_single (2 ^ 53) (2 ^ 53 + 1) (List.replicate (2 ^ 53) 1)
          (by rw [List.length_replicate]; norm_num))]
    rw [chunkSize_pow53]
    have hsub : 2 ^ 53 + 1 - 1 * 2 ^ 53 = 1 := by norm_num
    simp only [hsub, List.flatten_cons, List.flatten_nil, List.append_nil,
      List.replicate_one]
  · intro he
    rw [show (2 : Nat) ^ 53 + 1 = (2 ^ 53) + 1 from rfl,
      List.replicate_succ' (2 ^ 53) (1 : Nat)] at he
    have hx := List.append_cancel_left he
    simp at hx
